import Mathlib

/-!
Verification of the monetproxy block-framing parser, message observer,
transport fixup and text formatter against their natural-language
specification.  Byte streams are modelled as `List Nat` (each element a
byte value), machine integers as `Nat`, and fallible callbacks as
`Bool`-valued functions (`true` = `Ok`, `false` = an `io::Result` error).
-/

namespace Monetproxy

/-- State of the incremental block parser (`struct Blocks`,
`src/observers.rs` lines 11-15): a buffer of received-but-unconsumed
bytes, the next byte-count `goal` to reach, and the `last_block` flag
decoded from the most recent header. -/
structure Blocks where
  buffer : List Nat
  goal : Nat
  last_block : Bool
deriving DecidableEq, Repr

/-- `Blocks::new` (`src/observers.rs` lines 18-24): empty buffer,
`goal = 2`, `last_block = false`. -/
def Blocks.new : Blocks := { buffer := [], goal := 2, last_block := false }

/-- `Blocks::process` (`src/observers.rs` lines 26-70), embedded with the
fallible callback abstracted as `cb : payload → is_last → Bool`
(`true` = `Ok(())`, `false` = `Err`).  The result is the final parser
state, the trace of callback invocations `(payload, is_last)` in order,
and `none` when the whole input was consumed, or `some rest` holding the
bytes that were left unconsumed when the callback returned an error (the
Rust `result?` propagates the error before the loop continues).  The
`assert!(self.buffer.len() < self.goal)` at the loop head is modelled by
the early return of `(st, [], some data)` (a panic consumes nothing);
it is unreachable from any state satisfying the parser invariant. -/
def Blocks.processE (cb : List Nat → Bool → Bool) (st : Blocks) (data : List Nat) :
    Blocks × List (List Nat × Bool) × Option (List Nat) :=
  if h : data = [] then
    (st, [], none)
  else if hbad : st.goal ≤ st.buffer.length then
    (st, [], some data)
  else
    -- let to_read = self.goal - self.buffer.len(); let n = data.len().min(to_read)
    let n := min data.length (st.goal - st.buffer.length)
    let rest := data.drop n
    -- self.buffer.extend_from_slice(append); data = rest
    let st1 : Blocks := ⟨st.buffer ++ data.take n, st.goal, st.last_block⟩
    if st1.buffer.length < st1.goal then
      -- if self.buffer.len() < self.goal { continue; }
      Blocks.processE cb st1 rest
    else
      -- goal reached; if self.goal == 2, decode the little-endian header
      let st2 : Blocks :=
        if st1.goal = 2 then
          let header := st1.buffer.getD 0 0 + 256 * st1.buffer.getD 1 0
          ⟨st1.buffer, 2 + header / 2, header % 2 == 1⟩
        else st1
      if st2.buffer.length < st2.goal then
        -- situation 1: nonempty block header read, keep reading
        Blocks.processE cb st2 rest
      else
        -- situation 2 or 3: emit callback(&self.buffer[2..], self.last_block),
        -- then self.buffer.clear(); self.goal = 2; result?
        let payload := st2.buffer.drop 2
        let st3 : Blocks := ⟨[], 2, st2.last_block⟩
        if cb payload st2.last_block then
          let r := Blocks.processE cb st3 rest
          (r.1, (payload, st2.last_block) :: r.2.1, r.2.2)
        else
          (st3, [(payload, st2.last_block)], some rest)
termination_by data.length
decreasing_by
  all_goals
    simp only [List.length_drop]
    have hd : 0 < data.length := List.length_pos.mpr h
    omega

/-- The always-`Ok` callback, modelling an observer whose formatter
never fails. -/
def cbTrue : List Nat → Bool → Bool := fun _ _ => true

/-- `Blocks::process` with a callback that always succeeds: the final
state and the trace of callback invocations. -/
def Blocks.process (st : Blocks) (data : List Nat) :
    Blocks × List (List Nat × Bool) :=
  let r := Blocks.processE cbTrue st data
  (r.1, r.2.1)

/-- Feeding a list of chunks to `Blocks::process` one at a time,
accumulating the callback trace. -/
def Blocks.processChunks (st : Blocks) : List (List Nat) → Blocks × List (List Nat × Bool)
  | [] => (st, [])
  | c :: cs =>
    ((Blocks.processChunks (Blocks.process st c).1 cs).1,
     (Blocks.process st c).2 ++ (Blocks.processChunks (Blocks.process st c).1 cs).2)

/-- `Blocks::describe_eof` (`src/observers.rs` lines 72-80).  The body
reads the state without mutating it, so it is embedded as a pure
function; the `assert_ne!(n, self.goal)` is modelled by returning `none`
(a panic) when the assertion would fail. -/
def Blocks.describe_eof (st : Blocks) : Option String :=
  if st.buffer.length = st.goal then none
  else some (match st.buffer.length with
    | 0 => "closed its side of the connection"
    | 1 => "eof on incomplete block header"
    | _ => "eof on incomplete block body")

/-- The parser invariant stated by the spec: `goal ≥ 2` always, and
`buffer.len() < goal` outside the transient goal-reached moment. -/
def Blocks.Inv (st : Blocks) : Prop :=
  2 ≤ st.goal ∧ st.buffer.length < st.goal

instance (st : Blocks) : Decidable st.Inv := by
  unfold Blocks.Inv; infer_instance

/-- `data.len().min(to_read)`: how many bytes one loop iteration moves
into the buffer. -/
def Blocks.toRead (st : Blocks) (data : List Nat) : Nat :=
  min data.length (st.goal - st.buffer.length)

/-- The state after `self.buffer.extend_from_slice(append)`. -/
def Blocks.fill (st : Blocks) (data : List Nat) : Blocks :=
  ⟨st.buffer ++ data.take (st.toRead data), st.goal, st.last_block⟩

/-- The header-decoding step (`src/observers.rs` lines 50-62): when the
goal that was just reached is 2, decode the two buffered bytes as a
little-endian `u16`, add `header / 2` to the goal and record the last
bit; otherwise the state is unchanged. -/
def Blocks.headered (st1 : Blocks) : Blocks :=
  if st1.goal = 2 then
    let header := st1.buffer.getD 0 0 + 256 * st1.buffer.getD 1 0
    ⟨st1.buffer, 2 + header / 2, header % 2 == 1⟩
  else st1

/-- The loop body of `Blocks::process` after the bytes have been moved
into the buffer: the goal-reached checks, header decoding and emission.
`Blocks.processE` unfolds to `consume` on the filled state
(`processE_consume` below); naming this tail keeps the proofs readable. -/
def Blocks.consume (cb : List Nat → Bool → Bool) (st1 : Blocks) (rest : List Nat) :
    Blocks × List (List Nat × Bool) × Option (List Nat) :=
  if st1.buffer.length < st1.goal then
    Blocks.processE cb st1 rest
  else if st1.headered.buffer.length < st1.headered.goal then
    Blocks.processE cb st1.headered rest
  else if cb (st1.headered.buffer.drop 2) st1.headered.last_block then
    ((Blocks.processE cb ⟨[], 2, st1.headered.last_block⟩ rest).1,
     (st1.headered.buffer.drop 2, st1.headered.last_block) ::
       (Blocks.processE cb ⟨[], 2, st1.headered.last_block⟩ rest).2.1,
     (Blocks.processE cb ⟨[], 2, st1.headered.last_block⟩ rest).2.2)
  else
    (⟨[], 2, st1.headered.last_block⟩,
     [(st1.headered.buffer.drop 2, st1.headered.last_block)],
     some rest)

theorem Blocks.processE_nil (cb : List Nat → Bool → Bool) (st : Blocks) :
    Blocks.processE cb st [] = (st, [], none) := by
  rw [Blocks.processE.eq_def]; rfl

theorem Blocks.processE_consume (cb : List Nat → Bool → Bool) (st : Blocks)
    (data : List Nat) (hne : data ≠ []) (hlt : st.buffer.length < st.goal) :
    Blocks.processE cb st data =
      Blocks.consume cb (st.fill data) (data.drop (st.toRead data)) := by
  rw [Blocks.processE.eq_def, dif_neg hne,
    dif_neg (by omega : ¬ st.goal ≤ st.buffer.length)]
  simp only [Blocks.consume, Blocks.fill, Blocks.toRead, Blocks.headered]

theorem Blocks.toRead_pos (st : Blocks) (data : List Nat)
    (hne : data ≠ []) (hlt : st.buffer.length < st.goal) :
    1 ≤ st.toRead data := by
  have := List.length_pos.mpr hne
  unfold Blocks.toRead; omega

theorem Blocks.toRead_le (st : Blocks) (data : List Nat) :
    st.toRead data ≤ data.length := by
  unfold Blocks.toRead; omega

theorem Blocks.fill_goal (st : Blocks) (data : List Nat) :
    (st.fill data).goal = st.goal := rfl

theorem Blocks.fill_length (st : Blocks) (data : List Nat) :
    (st.fill data).buffer.length = st.buffer.length + st.toRead data := by
  have := st.toRead_le data
  simp only [Blocks.fill, List.length_append, List.length_take]
  unfold Blocks.toRead at *
  omega

theorem Blocks.headered_buffer (st1 : Blocks) :
    st1.headered.buffer = st1.buffer := by
  unfold Blocks.headered
  split <;> rfl

theorem Blocks.headered_goal_ge (st1 : Blocks) (h : 2 ≤ st1.goal) :
    2 ≤ st1.headered.goal := by
  unfold Blocks.headered
  split
  · exact Nat.le_add_right 2 _
  · exact h

theorem Blocks.drop_toRead_length (st : Blocks) (data : List Nat)
    (hne : data ≠ []) (hlt : st.buffer.length < st.goal) :
    (data.drop (st.toRead data)).length < data.length := by
  have h1 := st.toRead_pos data hne hlt
  have h2 := List.length_pos.mpr hne
  simp only [List.length_drop]
  omega

/-- Every call of `Blocks::process` (with any callback) preserves the
parser invariant, by induction on the length of the remaining input. -/
theorem Blocks.processE_inv_aux : ∀ (N : Nat) (data : List Nat) (st : Blocks)
    (cb : List Nat → Bool → Bool), data.length ≤ N →
    Blocks.Inv st → Blocks.Inv (Blocks.processE cb st data).1 := by
  intro N
  induction N with
  | zero =>
      intro data st cb hlen hInv
      have hnil : data = [] := List.eq_nil_of_length_eq_zero (by omega)
      subst hnil
      rwa [Blocks.processE_nil]
  | succ N ih =>
      intro data st cb hlen hInv
      by_cases hne : data = []
      · subst hne; rwa [Blocks.processE_nil]
      · have hlt := hInv.2
        have hdl := Blocks.drop_toRead_length st data hne hlt
        have hdN : (data.drop (st.toRead data)).length ≤ N := by omega
        rw [Blocks.processE_consume cb st data hne hlt]
        unfold Blocks.consume
        by_cases h1 : (st.fill data).buffer.length < (st.fill data).goal
        · rw [if_pos h1]
          exact ih _ _ cb hdN ⟨by rw [Blocks.fill_goal]; exact hInv.1, h1⟩
        · rw [if_neg h1]
          have hg2 : 2 ≤ (st.fill data).headered.goal :=
            Blocks.headered_goal_ge _ (by rw [Blocks.fill_goal]; exact hInv.1)
          by_cases h2 : (st.fill data).headered.buffer.length < (st.fill data).headered.goal
          · rw [if_pos h2]
            exact ih _ _ cb hdN ⟨hg2, h2⟩
          · rw [if_neg h2]
            by_cases h3 : cb ((st.fill data).headered.buffer.drop 2)
                (st.fill data).headered.last_block
            · rw [if_pos h3]
              exact ih _ _ cb hdN (by constructor <;> simp)
            · rw [if_neg h3]
              constructor <;> simp

/-- The parser invariant is preserved by `Blocks::process`. -/
theorem Blocks.processE_inv (cb : List Nat → Bool → Bool) (st : Blocks)
    (data : List Nat) (h : Blocks.Inv st) :
    Blocks.Inv (Blocks.processE cb st data).1 :=
  Blocks.processE_inv_aux data.length data st cb le_rfl h

/-- With a callback that never fails, `Blocks::process` consumes all of
its input: the left-over component is `none`. -/
theorem Blocks.processE_true_none : ∀ (N : Nat) (data : List Nat) (st : Blocks),
    data.length ≤ N → st.buffer.length < st.goal →
    (Blocks.processE cbTrue st data).2.2 = none := by
  intro N
  induction N with
  | zero =>
      intro data st hlen _
      have hnil : data = [] := List.eq_nil_of_length_eq_zero (by omega)
      subst hnil
      rw [Blocks.processE_nil]
  | succ N ih =>
      intro data st hlen hlt
      by_cases hne : data = []
      · subst hne; rw [Blocks.processE_nil]
      · have hdl := Blocks.drop_toRead_length st data hne hlt
        have hdN : (data.drop (st.toRead data)).length ≤ N := by omega
        rw [Blocks.processE_consume _ st data hne hlt]
        unfold Blocks.consume
        by_cases h1 : (st.fill data).buffer.length < (st.fill data).goal
        · rw [if_pos h1]
          exact ih _ _ hdN h1
        · rw [if_neg h1]
          by_cases h2 : (st.fill data).headered.buffer.length < (st.fill data).headered.goal
          · rw [if_pos h2]
            exact ih _ _ hdN h2
          · rw [if_neg h2, if_pos (show cbTrue _ _ = true from rfl)]
            exact ih _ _ hdN (by simp)

/-- Chunk-boundary independence of `Blocks::process`, componentwise on
`Blocks.processE` with the infallible callback: processing `a ++ b`
from any non-panicking state gives the state and trace of processing
`a` and then `b`.  Induction on the length of `a`; one loop iteration
either stays inside `a` (apply the induction hypothesis to the rest of
`a`) or exhausts `a`, in which case both runs continue from the very
same filled state. -/
theorem Blocks.processE_true_append : ∀ (N : Nat) (a b : List Nat) (st : Blocks),
    a.length ≤ N → st.buffer.length < st.goal →
    (Blocks.processE cbTrue st (a ++ b)).1 =
      (Blocks.processE cbTrue (Blocks.processE cbTrue st a).1 b).1 ∧
    (Blocks.processE cbTrue st (a ++ b)).2.1 =
      (Blocks.processE cbTrue st a).2.1 ++
        (Blocks.processE cbTrue (Blocks.processE cbTrue st a).1 b).2.1 := by
  intro N
  induction N with
  | zero =>
      intro a b st hlen hlt
      have hnil : a = [] := List.eq_nil_of_length_eq_zero (by omega)
      subst hnil
      rw [Blocks.processE_nil]
      simp
  | succ N ih =>
      intro a b st hlen hlt
      by_cases hne : a = []
      · subst hne
        rw [Blocks.processE_nil]
        simp
      · have hne2 : a ++ b ≠ [] := fun hc => hne (List.append_eq_nil.mp hc).1
        have hdl := Blocks.drop_toRead_length st a hne hlt
        have hdN : (a.drop (st.toRead a)).length ≤ N := by omega
        by_cases hsplit : st.goal - st.buffer.length ≤ a.length
        · -- the first loop iteration stays inside `a`
          have e1 : st.toRead (a ++ b) = st.toRead a := by
            unfold Blocks.toRead
            simp only [List.length_append]
            omega
          have e2 : st.toRead a ≤ a.length := by
            unfold Blocks.toRead; omega
          have etake : (a ++ b).take (st.toRead (a ++ b)) = a.take (st.toRead a) := by
            rw [e1, List.take_append_eq_append_take,
              (by omega : st.toRead a - a.length = 0)]
            simp
          have edrop : (a ++ b).drop (st.toRead (a ++ b)) = a.drop (st.toRead a) ++ b := by
            rw [e1, List.drop_append_eq_append_drop,
              (by omega : st.toRead a - a.length = 0)]
            simp
          have efill : st.fill (a ++ b) = st.fill a := by
            unfold Blocks.fill
            rw [etake]
          rw [Blocks.processE_consume cbTrue st (a ++ b) hne2 hlt, efill, edrop,
            Blocks.processE_consume cbTrue st a hne hlt]
          unfold Blocks.consume
          by_cases h1 : (st.fill a).buffer.length < (st.fill a).goal
          · rw [if_pos h1, if_pos h1]
            exact ih (a.drop (st.toRead a)) b (st.fill a) hdN h1
          · rw [if_neg h1, if_neg h1]
            by_cases h2 : (st.fill a).headered.buffer.length < (st.fill a).headered.goal
            · rw [if_pos h2, if_pos h2]
              exact ih (a.drop (st.toRead a)) b (st.fill a).headered hdN h2
            · rw [if_neg h2, if_neg h2, if_pos (show cbTrue _ _ = true from rfl),
                if_pos (show cbTrue _ _ = true from rfl)]
              dsimp only
              obtain ⟨ih1, ih2⟩ := ih (a.drop (st.toRead a)) b
                ⟨[], 2, (st.fill a).headered.last_block⟩ hdN (by simp)
              refine ⟨ih1, ?_⟩
              rw [ih2, List.cons_append]
        · -- the first loop iteration exhausts `a`
          push_neg at hsplit
          have e2 : st.toRead a = a.length := by
            unfold Blocks.toRead; omega
          have efa : st.fill a = ⟨st.buffer ++ a, st.goal, st.last_block⟩ := by
            unfold Blocks.fill
            rw [e2, List.take_length]
          have eda : a.drop (st.toRead a) = [] := by
            rw [e2, List.drop_length]
          have hfa_len : (st.fill a).buffer.length < (st.fill a).goal := by
            rw [Blocks.fill_length, Blocks.fill_goal, e2]
            omega
          have eqa : Blocks.processE cbTrue st a = (st.fill a, [], none) := by
            rw [Blocks.processE_consume cbTrue st a hne hlt]
            unfold Blocks.consume
            rw [if_pos hfa_len, eda, Blocks.processE_nil]
          by_cases hb : b = []
          · subst hb
            rw [List.append_nil, eqa]
            dsimp only
            rw [Blocks.processE_nil]
            simp
          · have hm_def : (st.fill a).toRead b
                = min b.length (st.goal - (st.buffer.length + a.length)) := by
              unfold Blocks.toRead
              rw [Blocks.fill_goal, Blocks.fill_length, e2]
            have etr2 : st.toRead (a ++ b) = a.length + (st.fill a).toRead b := by
              rw [hm_def]
              unfold Blocks.toRead
              simp only [List.length_append]
              omega
            have hmb : (st.fill a).toRead b ≤ b.length := Blocks.toRead_le _ b
            have edrop2 : (a ++ b).drop (st.toRead (a ++ b))
                = b.drop ((st.fill a).toRead b) := by
              rw [etr2, List.drop_append_eq_append_drop,
                List.drop_eq_nil_of_le (by omega),
                (by omega : a.length + (st.fill a).toRead b - a.length
                  = (st.fill a).toRead b)]
              simp
            have efill2 : st.fill (a ++ b) = (st.fill a).fill b := by
              conv_rhs => rw [efa]
              unfold Blocks.fill Blocks.toRead
              dsimp only
              simp only [List.length_append]
              rw [List.take_append_eq_append_take,
                List.take_of_length_le (by omega : a.length ≤
                  min (a.length + b.length) (st.goal - st.buffer.length)),
                (by omega : min (a.length + b.length) (st.goal - st.buffer.length)
                  - a.length = min b.length (st.goal - (st.buffer.length + a.length))),
                List.append_assoc]
            have haveL : Blocks.processE cbTrue st (a ++ b)
                = Blocks.consume cbTrue ((st.fill a).fill b)
                    (b.drop ((st.fill a).toRead b)) := by
              rw [Blocks.processE_consume cbTrue st (a ++ b) hne2 hlt, efill2, edrop2]
            have haveR : Blocks.processE cbTrue (st.fill a) b
                = Blocks.consume cbTrue ((st.fill a).fill b)
                    (b.drop ((st.fill a).toRead b)) :=
              Blocks.processE_consume cbTrue (st.fill a) b hb hfa_len
            rw [haveL, eqa]
            dsimp only
            rw [haveR]
            simp

/-- Processing one complete block from a block boundary: the two header
bytes (little-endian `H`) are consumed, then exactly `H / 2` payload
bytes, then the callback fires once with that payload and the last bit
of `H`; the parser returns to a block boundary and continues with the
remaining input. -/
theorem Blocks.processE_block (cb : List Nat → Bool → Bool) (l0 : Bool)
    (H : Nat) (payload rest : List Nat) (hlen : payload.length = H / 2) :
    Blocks.processE cb ⟨[], 2, l0⟩ ((H % 256 :: H / 256 :: payload) ++ rest) =
      if cb payload (H % 2 == 1) then
        ((Blocks.processE cb ⟨[], 2, H % 2 == 1⟩ rest).1,
         (payload, H % 2 == 1) :: (Blocks.processE cb ⟨[], 2, H % 2 == 1⟩ rest).2.1,
         (Blocks.processE cb ⟨[], 2, H % 2 == 1⟩ rest).2.2)
      else
        (⟨[], 2, H % 2 == 1⟩, [(payload, H % 2 == 1)], some rest) := by
  have hco : (H % 256 :: H / 256 :: payload) ++ rest
      = H % 256 :: H / 256 :: (payload ++ rest) := rfl
  rw [hco, Blocks.processE_consume cb ⟨[], 2, l0⟩ _ (by simp) (by simp)]
  have htr : (⟨[], 2, l0⟩ : Blocks).toRead (H % 256 :: H / 256 :: (payload ++ rest))
      = 2 := by
    unfold Blocks.toRead
    simp only [List.length_cons, List.length_nil]
    omega
  have hfill : (⟨[], 2, l0⟩ : Blocks).fill (H % 256 :: H / 256 :: (payload ++ rest))
      = ⟨[H % 256, H / 256], 2, l0⟩ := by
    unfold Blocks.fill
    rw [htr]
    rfl
  have hdrop : (H % 256 :: H / 256 :: (payload ++ rest)).drop
      ((⟨[], 2, l0⟩ : Blocks).toRead (H % 256 :: H / 256 :: (payload ++ rest)))
      = payload ++ rest := by
    rw [htr]
    rfl
  rw [hfill, hdrop]
  unfold Blocks.consume
  rw [if_neg (by simp)]
  have hhead : (⟨[H % 256, H / 256], 2, l0⟩ : Blocks).headered
      = ⟨[H % 256, H / 256], 2 + H / 2, H % 2 == 1⟩ := by
    unfold Blocks.headered
    rw [if_pos rfl]
    simp only [List.getD_cons_zero, List.getD_cons_succ, Nat.mod_add_div]
  rw [hhead]
  by_cases hz : H / 2 = 0
  · -- situation 2: an empty block, emitted straight from the header
    have hpl : payload = [] := List.eq_nil_of_length_eq_zero (by omega)
    subst hpl
    rw [if_neg (by simp only [List.length_cons, List.length_nil]; omega)]
    simp only [List.nil_append]
    rfl
  · -- situation 1 then 3: read the payload bytes, then emit
    rw [if_pos (by simp only [List.length_cons, List.length_nil]; omega)]
    have hpne : payload ≠ [] := by
      intro hc
      rw [hc] at hlen
      simp at hlen
      omega
    have hne2 : payload ++ rest ≠ [] := fun hc => hpne (List.append_eq_nil.mp hc).1
    rw [Blocks.processE_consume cb _ _ hne2
      (by simp only [List.length_cons, List.length_nil]; omega)]
    have htr2 : (⟨[H % 256, H / 256], 2 + H / 2, H % 2 == 1⟩ : Blocks).toRead
        (payload ++ rest) = H / 2 := by
      unfold Blocks.toRead
      simp only [List.length_append, List.length_cons, List.length_nil]
      omega
    have hfill2 : (⟨[H % 256, H / 256], 2 + H / 2, H % 2 == 1⟩ : Blocks).fill
        (payload ++ rest)
        = ⟨[H % 256, H / 256] ++ payload, 2 + H / 2, H % 2 == 1⟩ := by
      unfold Blocks.fill
      rw [htr2, ← hlen, List.take_left]
    have hdrop2 : (payload ++ rest).drop
        ((⟨[H % 256, H / 256], 2 + H / 2, H % 2 == 1⟩ : Blocks).toRead (payload ++ rest))
        = rest := by
      rw [htr2, ← hlen, List.drop_left]
    rw [hfill2, hdrop2]
    unfold Blocks.consume
    rw [if_neg (by
      simp only [List.length_append, List.length_cons, List.length_nil]
      omega)]
    have hhead2 : (⟨[H % 256, H / 256] ++ payload, 2 + H / 2, H % 2 == 1⟩ : Blocks).headered
        = ⟨[H % 256, H / 256] ++ payload, 2 + H / 2, H % 2 == 1⟩ := by
      unfold Blocks.headered
      rw [if_neg (by simp only []; omega)]
    rw [hhead2, if_neg (by
      simp only [List.length_append, List.length_cons, List.length_nil]
      omega)]
    have hd2 : ([H % 256, H / 256] ++ payload).drop 2 = payload := rfl
    rw [hd2]

/-- `Blocks::process` splits over list concatenation. -/
theorem Blocks.process_append (a b : List Nat) (st : Blocks)
    (hlt : st.buffer.length < st.goal) :
    Blocks.process st (a ++ b) =
      ((Blocks.process (Blocks.process st a).1 b).1,
       (Blocks.process st a).2 ++ (Blocks.process (Blocks.process st a).1 b).2) := by
  obtain ⟨h1, h2⟩ := Blocks.processE_true_append a.length a b st le_rfl hlt
  simp only [Blocks.process, Prod.mk.injEq]
  exact ⟨h1, h2⟩

/-- The parser invariant is preserved by any sequence of `process` calls. -/
theorem Blocks.processChunks_inv (chunks : List (List Nat)) :
    ∀ (st : Blocks), Blocks.Inv st → Blocks.Inv (Blocks.processChunks st chunks).1 := by
  induction chunks with
  | nil => intro st h; simpa [Blocks.processChunks] using h
  | cons c cs ih =>
      intro st h
      simp only [Blocks.processChunks]
      exact ih _ (Blocks.processE_inv cbTrue st c h)

/-- Feeding chunks one at a time equals feeding their concatenation in
one call, from any state satisfying the parser invariant. -/
theorem Blocks.processChunks_join (chunks : List (List Nat)) :
    ∀ (st : Blocks), Blocks.Inv st →
    Blocks.processChunks st chunks = Blocks.process st chunks.flatten := by
  induction chunks with
  | nil =>
      intro st hInv
      simp [Blocks.processChunks, Blocks.process, Blocks.processE_nil]
  | cons c cs ih =>
      intro st hInv
      have hInv2 : Blocks.Inv (Blocks.process st c).1 :=
        Blocks.processE_inv cbTrue st c hInv
      have hj : (c :: cs).flatten = c ++ cs.flatten := rfl
      rw [hj, Blocks.process_append c cs.flatten st hInv.2]
      simp only [Blocks.processChunks]
      rw [ih (Blocks.process st c).1 hInv2]

theorem Blocks.process_nil (st : Blocks) : Blocks.process st [] = (st, []) := by
  simp [Blocks.process, Blocks.processE_nil]

/-- `Blocks.process_block`: the infallible-callback version of
`processE_block`, at the level of `Blocks.process`. -/
theorem Blocks.process_block (l0 : Bool) (H : Nat) (payload rest : List Nat)
    (hlen : payload.length = H / 2) :
    Blocks.process ⟨[], 2, l0⟩ ((H % 256 :: H / 256 :: payload) ++ rest) =
      ((Blocks.process ⟨[], 2, H % 2 == 1⟩ rest).1,
       (payload, H % 2 == 1) :: (Blocks.process ⟨[], 2, H % 2 == 1⟩ rest).2) := by
  simp only [Blocks.process]
  rw [Blocks.processE_block cbTrue l0 H payload rest hlen,
    if_pos (show cbTrue _ _ = true from rfl)]

/-- The reassembly state of a `MessageObserver` (`src/observers.rs`
lines 83-88): the block parser plus the accumulating `message` buffer. -/
structure MessageObserver where
  blocks : Blocks
  message : List Nat
deriving DecidableEq, Repr

/-- `MessageObserver::new` (`src/observers.rs` lines 91-98). -/
def MessageObserver.new : MessageObserver := ⟨Blocks.new, []⟩

/-- The effect of the callback closure in `MessageObserver::on_data`
(`src/observers.rs` lines 103-112), replayed over the trace of callback
invocations: each block payload is appended to the reassembly buffer;
on `is_last` the accumulated message is rendered and the buffer
cleared.  Returns the final buffer and the rendered message payloads in
order. -/
def msgAccum (msg : List Nat) : List (List Nat × Bool) → List Nat × List (List Nat)
  | [] => (msg, [])
  | (p, islast) :: tr =>
    if islast then
      ((msgAccum [] tr).1, (msg ++ p) :: (msgAccum [] tr).2)
    else
      msgAccum (msg ++ p) tr

/-- `MessageObserver::on_data` (`src/observers.rs` lines 102-116), for a
formatter that never fails: the data is fed to `Blocks::process`, whose
callback trace drives the reassembly buffer.  Returns the new observer
state and the payloads of the messages rendered during the call. -/
def MessageObserver.on_data (mo : MessageObserver) (data : List Nat) :
    MessageObserver × List (List Nat) :=
  (⟨(Blocks.process mo.blocks data).1,
    (msgAccum mo.message (Blocks.process mo.blocks data).2).1⟩,
   (msgAccum mo.message (Blocks.process mo.blocks data).2).2)

/-- The wire encoding of one block, from the spec (§6, wire protocol):
a 2-byte little-endian header `H = 2 * len + last` followed by the
payload. -/
def encodeBlock (last : Bool) (p : List Nat) : List Nat :=
  (2 * p.length + if last then 1 else 0) % 256
    :: (2 * p.length + if last then 1 else 0) / 256
    :: p

/-- The wire encoding of blocks B₁..Bₖ in which only Bₖ has the last
bit set. -/
def encodeMessage : List (List Nat) → List Nat
  | [] => []
  | [p] => encodeBlock true p
  | p :: ps => encodeBlock false p ++ encodeMessage ps

/-- The callback trace the parser is expected to produce for the blocks
B₁..Bₖ of one message. -/
def msgTrace : List (List Nat) → List (List Nat × Bool)
  | [] => []
  | [p] => [(p, true)]
  | p :: ps => (p, false) :: msgTrace ps

theorem Blocks.process_encodeMessage : ∀ (ps : List (List Nat)) (l0 : Bool),
    ps ≠ [] →
    Blocks.process ⟨[], 2, l0⟩ (encodeMessage ps) = (⟨[], 2, true⟩, msgTrace ps) := by
  intro ps
  induction ps with
  | nil => intro l0 h; exact absurd rfl h
  | cons p ps ih =>
      intro l0 _
      cases ps with
      | nil =>
          rw [show encodeMessage [p]
              = ((2 * p.length + 1) % 256 :: (2 * p.length + 1) / 256 :: p) ++ []
            from by simp [encodeMessage, encodeBlock]]
          rw [Blocks.process_block l0 (2 * p.length + 1) p [] (by omega)]
          have h1 : (2 * p.length + 1) % 2 = 1 := by omega
          rw [h1, Blocks.process_nil]
          rfl
      | cons q qs =>
          rw [show encodeMessage (p :: q :: qs)
              = ((2 * p.length + 0) % 256 :: (2 * p.length + 0) / 256 :: p)
                ++ encodeMessage (q :: qs)
            from by simp [encodeMessage, encodeBlock]]
          rw [Blocks.process_block l0 (2 * p.length + 0) p (encodeMessage (q :: qs))
            (by omega)]
          have h0 : (2 * p.length + 0) % 2 = 0 := by omega
          rw [h0, ih (0 == 1) (by simp)]
          rfl

theorem msgAccum_msgTrace : ∀ (ps : List (List Nat)) (msg : List Nat), ps ≠ [] →
    msgAccum msg (msgTrace ps) = ([], [msg ++ ps.flatten]) := by
  intro ps
  induction ps with
  | nil => intro msg h; exact absurd rfl h
  | cons p ps ih =>
      intro msg _
      cases ps with
      | nil => simp [msgTrace, msgAccum]
      | cons q qs =>
          rw [show msgTrace (p :: q :: qs) = (p, false) :: msgTrace (q :: qs) from rfl,
            show msgAccum msg ((p, false) :: msgTrace (q :: qs))
              = msgAccum (msg ++ p) (msgTrace (q :: qs)) from by simp [msgAccum]]
          rw [ih (msg ++ p) (by simp)]
          simp

/-- When `Blocks::process` propagates a callback error, the state has
already been reset to a block boundary (`buffer.clear(); self.goal = 2`
run before `result?`), the failing invocation is the last entry of the
trace, and the input bytes after the failing block are returned
unconsumed. -/
theorem Blocks.processE_err_aux : ∀ (N : Nat) (data : List Nat) (st : Blocks)
    (cb : List Nat → Bool → Bool) (st' : Blocks) (tr : List (List Nat × Bool))
    (rest : List Nat),
    data.length ≤ N → Blocks.Inv st →
    Blocks.processE cb st data = (st', tr, some rest) →
    st'.buffer = [] ∧ st'.goal = 2 ∧
      (∃ pl : List Nat × Bool, tr.getLast? = some pl ∧ cb pl.1 pl.2 = false) ∧
      ∃ consumed, data = consumed ++ rest := by
  intro N
  induction N with
  | zero =>
      intro data st cb st' tr rest hlen hInv heq
      have hnil : data = [] := List.eq_nil_of_length_eq_zero (by omega)
      subst hnil
      rw [Blocks.processE_nil] at heq
      simp at heq
  | succ N ih =>
      intro data st cb st' tr rest hlen hInv heq
      by_cases hne : data = []
      · subst hne
        rw [Blocks.processE_nil] at heq
        simp at heq
      · have hlt := hInv.2
        have hdl := Blocks.drop_toRead_length st data hne hlt
        have hdN : (data.drop (st.toRead data)).length ≤ N := by omega
        have hsplitd : data
            = data.take (st.toRead data) ++ data.drop (st.toRead data) :=
          (List.take_append_drop _ data).symm
        rw [Blocks.processE_consume cb st data hne hlt] at heq
        unfold Blocks.consume at heq
        by_cases h1 : (st.fill data).buffer.length < (st.fill data).goal
        · rw [if_pos h1] at heq
          obtain ⟨e1, e2, e3, consumed, e4⟩ := ih _ _ cb st' tr rest hdN
            ⟨by rw [Blocks.fill_goal]; exact hInv.1, h1⟩ heq
          refine ⟨e1, e2, e3, data.take (st.toRead data) ++ consumed, ?_⟩
          rw [List.append_assoc, ← e4]
          exact hsplitd
        · rw [if_neg h1] at heq
          have hg2 : 2 ≤ (st.fill data).headered.goal :=
            Blocks.headered_goal_ge _ (by rw [Blocks.fill_goal]; exact hInv.1)
          by_cases h2 : (st.fill data).headered.buffer.length
              < (st.fill data).headered.goal
          · rw [if_pos h2] at heq
            obtain ⟨e1, e2, e3, consumed, e4⟩ := ih _ _ cb st' tr rest hdN
              ⟨hg2, h2⟩ heq
            refine ⟨e1, e2, e3, data.take (st.toRead data) ++ consumed, ?_⟩
            rw [List.append_assoc, ← e4]
            exact hsplitd
          · rw [if_neg h2] at heq
            by_cases h3 : cb ((st.fill data).headered.buffer.drop 2)
                (st.fill data).headered.last_block
            · rw [if_pos h3] at heq
              simp only [Prod.mk.injEq] at heq
              obtain ⟨hA, hB, hC⟩ := heq
              have hrec : Blocks.processE cb
                  ⟨[], 2, (st.fill data).headered.last_block⟩
                  (data.drop (st.toRead data))
                  = ((Blocks.processE cb ⟨[], 2, (st.fill data).headered.last_block⟩
                      (data.drop (st.toRead data))).1,
                     (Blocks.processE cb ⟨[], 2, (st.fill data).headered.last_block⟩
                      (data.drop (st.toRead data))).2.1,
                     some rest) := by
                rw [← hC]
              obtain ⟨e1, e2, e3, consumed, e4⟩ := ih _ _ cb _ _ rest hdN
                (by constructor <;> simp) hrec
              refine ⟨?_, ?_, ?_, data.take (st.toRead data) ++ consumed, ?_⟩
              · rw [← hA]; exact e1
              · rw [← hA]; exact e2
              · obtain ⟨pl0, hpl0, hcb0⟩ := e3
                refine ⟨pl0, ?_, hcb0⟩
                rw [← hB]
                have hne2 : (Blocks.processE cb
                    ⟨[], 2, (st.fill data).headered.last_block⟩
                    (data.drop (st.toRead data))).2.1 ≠ [] := by
                  intro hc
                  rw [hc] at hpl0
                  simp at hpl0
                cases hX : (Blocks.processE cb
                    ⟨[], 2, (st.fill data).headered.last_block⟩
                    (data.drop (st.toRead data))).2.1 with
                | nil => exact absurd hX hne2
                | cons c cs =>
                    rw [hX] at hpl0
                    rw [List.getLast?_cons_cons]
                    exact hpl0
              · rw [List.append_assoc, ← e4]
                exact hsplitd
            · rw [if_neg h3] at heq
              simp only [Prod.mk.injEq, Option.some.injEq] at heq
              obtain ⟨hA, hB, hC⟩ := heq
              refine ⟨?_, ?_, ?_, ?_⟩
              · rw [← hA]
              · rw [← hA]
              · refine ⟨((st.fill data).headered.buffer.drop 2,
                  (st.fill data).headered.last_block), ?_, ?_⟩
                · rw [← hB]
                  rfl
                · simpa using h3
              · refine ⟨data.take (st.toRead data), ?_⟩
                rw [← hC]
                exact hsplitd

/-! ### Formatter: text classification and message labels
(`src/formatter.rs`) -/

/-- UTF-8 validation and decoding exactly as Rust's `str::from_utf8`
accepts it: shortest-form encodings only, no surrogates, code points at
most `0x10FFFF`.  Returns the decoded code points, or `none` when the
bytes are not valid UTF-8. -/
def utf8Decode : List Nat → Option (List Nat)
  | [] => some []
  | b0 :: t0 =>
    if b0 < 0x80 then
      match utf8Decode t0 with
      | some cps => some (b0 :: cps)
      | none => none
    else if b0 < 0xC0 then none
    else if b0 < 0xE0 then
      match t0 with
      | b1 :: t1 =>
        if 0x80 ≤ b1 ∧ b1 < 0xC0 then
          if 0x80 ≤ (b0 - 0xC0) * 0x40 + (b1 - 0x80) then
            match utf8Decode t1 with
            | some cps => some (((b0 - 0xC0) * 0x40 + (b1 - 0x80)) :: cps)
            | none => none
          else none
        else none
      | [] => none
    else if b0 < 0xF0 then
      match t0 with
      | b1 :: b2 :: t2 =>
        if (0x80 ≤ b1 ∧ b1 < 0xC0) ∧ (0x80 ≤ b2 ∧ b2 < 0xC0) then
          if 0x800 ≤ (b0 - 0xE0) * 0x1000 + (b1 - 0x80) * 0x40 + (b2 - 0x80) ∧
              ¬ (0xD800 ≤ (b0 - 0xE0) * 0x1000 + (b1 - 0x80) * 0x40 + (b2 - 0x80) ∧
                 (b0 - 0xE0) * 0x1000 + (b1 - 0x80) * 0x40 + (b2 - 0x80) ≤ 0xDFFF) then
            match utf8Decode t2 with
            | some cps =>
                some (((b0 - 0xE0) * 0x1000 + (b1 - 0x80) * 0x40 + (b2 - 0x80)) :: cps)
            | none => none
          else none
        else none
      | _ => none
    else if b0 < 0xF8 then
      match t0 with
      | b1 :: b2 :: b3 :: t3 =>
        if (0x80 ≤ b1 ∧ b1 < 0xC0) ∧ (0x80 ≤ b2 ∧ b2 < 0xC0) ∧
            (0x80 ≤ b3 ∧ b3 < 0xC0) then
          if 0x10000 ≤ (b0 - 0xF0) * 0x40000 + (b1 - 0x80) * 0x1000
                + (b2 - 0x80) * 0x40 + (b3 - 0x80) ∧
              (b0 - 0xF0) * 0x40000 + (b1 - 0x80) * 0x1000
                + (b2 - 0x80) * 0x40 + (b3 - 0x80) ≤ 0x10FFFF then
            match utf8Decode t3 with
            | some cps =>
                some (((b0 - 0xF0) * 0x40000 + (b1 - 0x80) * 0x1000
                  + (b2 - 0x80) * 0x40 + (b3 - 0x80)) :: cps)
            | none => none
          else none
        else none
      | _ => none
    else none

/-- Rust's `char::is_control`: the Unicode `Cc` category,
U+0000–U+001F and U+007F–U+009F. -/
def isControl (c : Nat) : Bool :=
  c < 0x20 || (0x7F ≤ c && c ≤ 0x9F)

/-- `is_printable_text` (`src/formatter.rs` lines 217-230): the data is
printable text when it decodes as UTF-8 and no decoded character is a
control character other than `\n` (10) or `\t` (9). -/
def is_printable_text (data : List Nat) : Option (List Nat) :=
  match utf8Decode data with
  | some text =>
    if (text.find? fun c => isControl c && !(c == 10) && !(c == 9)).isSome then
      none
    else
      some text
  | none => none

/-- The `text` selection at the top of `print_message`
(`src/formatter.rs` lines 185-189): when the formatter's `force_binary`
flag is set the autodetection is suppressed. -/
def chooseText (force_binary : Bool) (data : List Nat) : Option (List Nat) :=
  if force_binary then none else is_printable_text data

/-- The block label built by `print_message` (`src/formatter.rs` lines
191-204): `text, N bytes` (with `, no trailing newline` appended when
the data is nonempty and does not end in `\n`) or `binary, N bytes`,
followed by the remarks, each preceded by `", "`. -/
def messageLabel (force_binary : Bool) (data : List Nat) (remarks : List String) :
    String :=
  remarks.foldl (fun m r => m ++ ", " ++ r)
    (if (chooseText force_binary data).isSome then
      if data = [] ∨ data.getLast? = some 10 then
        "text, " ++ toString data.length ++ " bytes"
      else
        "text, " ++ toString data.length ++ " bytes, no trailing newline"
    else
      "binary, " ++ toString data.length ++ " bytes")

/-! ### Proxy pipeline: the transport fixup
(`src/proxy.rs`, `listen`) -/

/-- A transport family: TCP (`Address::Inet`) or a local filesystem
socket (`Address::Unix`). -/
inductive Transport
  | inet
  | unix
deriving DecidableEq, Repr

/-- The `on_adjustment` notifications the upstream worker can issue,
abstracted to tags: `removeZero` stands for the message
`adjust unix->inet socket: remove leading` `0`, `insertZero` for
`adjust inet->unix socket: insert` `0` (`src/proxy.rs` lines 237, 248). -/
inductive Adjustment
  | removeZero
  | insertZero
deriving DecidableEq, Repr

/-- The error kinds the upstream prologue can produce: `InvalidData`
for a wrong first byte, `UnexpectedEof` when `read_exact` hits EOF. -/
inductive ErrKind
  | invalidData
  | unexpectedEof
deriving DecidableEq, Repr

/-- `to_insert` from the match on `(client_address, server_address)`
(`src/proxy.rs` lines 213-223): the byte `'0'` (48) is inserted exactly
when an inet client is bridged to a unix server. -/
def to_insert (client server : Transport) : List Nat :=
  match client, server with
  | .inet, .unix => [48]
  | _, _ => []

/-- `to_remove` from the same match: the byte `'0'` (48) is removed
exactly when a unix client is bridged to an inet server. -/
def to_remove (client server : Transport) : List Nat :=
  match client, server with
  | .unix, .inet => [48]
  | _, _ => []

/-- The `to_insert` step of the upstream worker (`src/proxy.rs` lines
247-251): when `to_insert` is nonempty, notify `on_adjustment` and
write `'0'` to the server ahead of the forwarded bytes. -/
def insertStep (client server : Transport) (adjs : List Adjustment)
    (remaining : List Nat) : List Adjustment × List Nat :=
  if (to_insert client server).isEmpty then
    (adjs, remaining)
  else
    (adjs ++ [.insertZero], to_insert client server ++ remaining)

/-- The prologue of the upstream worker thread (`src/proxy.rs` lines
231-252), run before the pump starts: when `to_remove` is nonempty,
`read_exact` one byte from the client (EOF yields `UnexpectedEof`) and
require it to be `'0'` (48), else fail with `InvalidData`; then the
`to_insert` step.  Returns the `on_adjustment` notifications in order
together with the bytes that reach the server (the inserted prefix plus
the remaining client bytes, which the pump forwards verbatim). -/
def upstreamFixup (client server : Transport) (input : List Nat) :
    Except ErrKind (List Adjustment × List Nat) :=
  if (to_remove client server).isEmpty then
    .ok (insertStep client server [] input)
  else
    match input with
    | [] => .error .unexpectedEof
    | b :: restOfInput =>
      if b = 48 then
        .ok (insertStep client server [.removeZero] restOfInput)
      else
        .error .invalidData

/-! ### The claims -/

/-- C1: for every byte sequence and every way of splitting it into
chunks, feeding the chunks one at a time to `Blocks::process` produces
exactly the same sequence of callback invocations (same payload bytes
and same `is_last` flags, in the same order) — and the same final
parser state — as feeding the whole concatenated sequence in a single
call. -/
theorem claim_total_reassembly (chunks : List (List Nat)) :
    Blocks.processChunks Blocks.new chunks
      = Blocks.process Blocks.new chunks.flatten :=
  Blocks.processChunks_join chunks Blocks.new (by decide)

/-- C2: for well-formed blocks B₁..Bₖ (k ≥ 1, each payload short
enough for a 16-bit header) in which only Bₖ has the last bit set,
`MessageObserver::on_data` on a fresh observer renders exactly one
message, its payload is the concatenation B₁‖…‖Bₖ, and the reassembly
buffer is empty afterwards. -/
theorem claim_message_reassembly (ps : List (List Nat)) (hne : ps ≠ [])
    (hlen : ∀ p ∈ ps, p.length < 32768) :
    MessageObserver.on_data MessageObserver.new (encodeMessage ps)
      = (⟨⟨[], 2, true⟩, []⟩, [ps.flatten]) := by
  unfold MessageObserver.on_data
  rw [show MessageObserver.new.blocks = (⟨[], 2, false⟩ : Blocks) from rfl,
    show MessageObserver.new.message = ([] : List Nat) from rfl,
    Blocks.process_encodeMessage ps false hne]
  rw [show ((⟨[], 2, true⟩ : Blocks), msgTrace ps).2 = msgTrace ps from rfl,
    msgAccum_msgTrace ps [] hne]
  simp

theorem claim_message_reassembly_witness :
    ([[5], [7]] : List (List Nat)) ≠ [] ∧
    (∀ p ∈ ([[5], [7]] : List (List Nat)), p.length < 32768) ∧
    MessageObserver.on_data MessageObserver.new (encodeMessage [[5], [7]])
      = (⟨⟨[], 2, true⟩, []⟩, [[5, 7]]) := by
  refine ⟨by simp, by decide, ?_⟩
  have h := claim_message_reassembly [[5], [7]] (by simp) (by decide)
  simpa using h

/-- C3: a 16-bit header `H`, presented as two little-endian bytes,
makes the parser consume exactly `H >>> 1 = H / 2` payload bytes after
the header and invoke the callback once with that payload and
`is_last = ((H &&& 1) = 1)`, after which it is back at a block boundary
and processes the remaining input independently.  (Instantiating
`H := 1` gives the empty terminator: one callback with empty payload
and `is_last = true`.) -/
theorem claim_header_decoding (H : Nat) (payload rest : List Nat)
    (hH : H < 65536) (hlen : payload.length = H / 2) :
    Blocks.process Blocks.new ((H % 256 :: H / 256 :: payload) ++ rest)
      = ((Blocks.process ⟨[], 2, H % 2 == 1⟩ rest).1,
         (payload, H % 2 == 1) :: (Blocks.process ⟨[], 2, H % 2 == 1⟩ rest).2) := by
  rw [show Blocks.new = (⟨[], 2, false⟩ : Blocks) from rfl]
  exact Blocks.process_block false H payload rest hlen

theorem claim_header_decoding_witness :
    (1 : Nat) < 65536 ∧ ([] : List Nat).length = 1 / 2 ∧
    Blocks.process Blocks.new [1, 0] = (⟨[], 2, true⟩, [([], true)]) := by
  refine ⟨by omega, by simp, ?_⟩
  have h := claim_header_decoding 1 [] [] (by omega) (by simp)
  rw [Blocks.process_nil] at h
  simpa using h

/-- C4 counterexample: a unix-socket client talking to a unix-socket
server sends a first byte that is not `'0'` (here `'A'` = 65) and the
connection does not fail: the byte is forwarded unchanged, so the
claimed check does not hold for every server transport. -/
theorem claim_unix_client_check_counterexample :
    upstreamFixup Transport.unix Transport.unix [65] = Except.ok ([], [65]) ∧
    ¬ (∀ (server : Transport) (b : Nat) (restOfInput : List Nat), b ≠ 48 →
        upstreamFixup Transport.unix server (b :: restOfInput)
          = Except.error ErrKind.invalidData) := by
  constructor
  · rfl
  · intro hclaim
    have h := hclaim Transport.unix 65 [] (by omega)
    simp [upstreamFixup, to_remove, to_insert, insertStep] at h

/-- C4 (amended): the one-byte `'0'` check applies exactly when a
local-socket client is bridged to an inet server: then the pipeline
reads one byte before forwarding anything and fails with `InvalidData`
when that byte is not the ASCII digit `'0'` (48); when client and
server are both local sockets, no byte is read or checked and the
stream passes through unchanged. -/
theorem claim_unix_client_check (b : Nat) (restOfInput input : List Nat) :
    (b ≠ 48 → upstreamFixup Transport.unix Transport.inet (b :: restOfInput)
      = Except.error ErrKind.invalidData) ∧
    upstreamFixup Transport.unix Transport.inet (48 :: restOfInput)
      = Except.ok ([Adjustment.removeZero], restOfInput) ∧
    upstreamFixup Transport.unix Transport.inet []
      = Except.error ErrKind.unexpectedEof ∧
    upstreamFixup Transport.unix Transport.unix input = Except.ok ([], input) := by
  refine ⟨?_, rfl, rfl, rfl⟩
  intro hb
  simp [upstreamFixup, to_remove, to_insert, insertStep, hb]

theorem claim_unix_client_check_witness :
    upstreamFixup Transport.unix Transport.inet [65]
      = Except.error ErrKind.invalidData ∧
    upstreamFixup Transport.unix Transport.inet [48, 5]
      = Except.ok ([Adjustment.removeZero], [5]) ∧
    upstreamFixup Transport.unix Transport.unix [65]
      = Except.ok ([], [65]) :=
  ⟨(claim_unix_client_check 65 [] []).1 (by omega),
   (claim_unix_client_check 48 [5] []).2.1,
   (claim_unix_client_check 65 [] [65]).2.2.2⟩

/-- C5 counterexample: for a connection whose two sides are the same
transport family (here inet to inet) the upstream prologue issues no
`on_adjustment`/`on_unix0` notification at all: the observer is not
called. -/
theorem claim_same_family_note_counterexample :
    upstreamFixup Transport.inet Transport.inet [] = Except.ok ([], []) ∧
    ¬ (∀ (t : Transport) (input : List Nat) (adjs : List Adjustment)
        (outBytes : List Nat),
        upstreamFixup t t input = Except.ok (adjs, outBytes) → adjs ≠ []) := by
  constructor
  · rfl
  · intro hclaim
    exact hclaim Transport.inet [] [] [] rfl rfl

/-- C5 (amended): when client and server belong to the same transport
family the pipeline performs no fixup at all before the upstream pump
starts: no `on_unix0`/`on_adjustment` call is made and the byte stream
is forwarded unchanged; the fixup notification happens exactly when
the transports differ. -/
theorem claim_same_family_no_note (t : Transport) (input : List Nat) :
    upstreamFixup t t input = Except.ok ([], input) := by
  cases t <;> rfl

/-- C6 counterexample: for the one-byte text payload `h` (104) with no
trailing newline, `print_message` labels the block
`text, 1 bytes, no trailing newline` — without the exclamation mark
the claim requires. -/
theorem claim_no_trailing_newline_counterexample :
    messageLabel false [104] [] = "text, 1 bytes, no trailing newline" ∧
    ¬ messageLabel false [104] [] = "text, 1 bytes, no trailing newline!" := by
  constructor
  · rfl
  · decide

/-- C6 (amended): for every payload classified as text (no
`force_binary`) that is nonempty and whose last byte is not a newline,
the block label is `text, N bytes, no trailing newline` — the suffix
carries no exclamation mark. -/
theorem claim_no_trailing_newline (data : List Nat)
    (htext : (is_printable_text data).isSome = true)
    (hne : data ≠ []) (hnl : data.getLast? ≠ some 10) :
    messageLabel false data []
      = "text, " ++ toString data.length ++ " bytes, no trailing newline" := by
  unfold messageLabel
  rw [if_pos (show (chooseText false data).isSome = true from htext)]
  rw [if_neg (by
    rintro (hc | hc)
    · exact hne hc
    · exact hnl hc)]
  rfl

theorem claim_no_trailing_newline_witness :
    (is_printable_text [104]).isSome = true ∧ ([104] : List Nat) ≠ [] ∧
    ([104] : List Nat).getLast? ≠ some 10 ∧
    messageLabel false [104] []
      = "text, " ++ toString ([104] : List Nat).length
        ++ " bytes, no trailing newline" :=
  ⟨by decide, by decide, by decide,
   claim_no_trailing_newline [104] (by decide) (by decide) (by decide)⟩

/-- C7: `print_message` classifies a payload as text iff it is valid
UTF-8 and contains no control character other than `\n` (10) or `\t`
(9); and whenever `force_binary` is set, the payload is classified as
binary regardless of its content. -/
theorem claim_text_classification (data : List Nat) :
    ((chooseText false data).isSome = true ↔
      (∃ cps, utf8Decode data = some cps ∧
        ∀ c ∈ cps, isControl c = true → c = 10 ∨ c = 9)) ∧
    chooseText true data = none := by
  refine ⟨?_, rfl⟩
  show (is_printable_text data).isSome = true ↔ _
  rcases hu : utf8Decode data with _ | cps
  · have hnone : is_printable_text data = none := by
      unfold is_printable_text
      rw [hu]
    rw [hnone]
    simp
  · have hsome : is_printable_text data
        = if (cps.find? fun c => isControl c && !(c == 10) && !(c == 9)).isSome
          then none else some cps := by
      unfold is_printable_text
      rw [hu]
    rw [hsome]
    by_cases hf : (cps.find? fun c => isControl c && !(c == 10) && !(c == 9)).isSome
    · rw [if_pos hf]
      simp only [Option.isSome_none, Bool.false_eq_true, false_iff]
      rintro ⟨cps', hcps', hall⟩
      obtain rfl : cps = cps' := by simpa using hcps'
      obtain ⟨x, hx, hpx⟩ := List.find?_isSome.mp hf
      have hctl : isControl x = true := by
        revert hpx
        cases isControl x <;> simp
      have h10 : ¬ x = 10 := by
        intro hc
        subst hc
        simp at hpx
      have h9 : ¬ x = 9 := by
        intro hc
        subst hc
        simp at hpx
      rcases hall x hx hctl with h | h
      · exact h10 h
      · exact h9 h
    · rw [if_neg hf]
      simp only [Option.isSome_some, true_iff]
      refine ⟨cps, rfl, ?_⟩
      intro c hc hctl
      have hnone2 : (cps.find? fun c => isControl c && !(c == 10) && !(c == 9))
          = none := by
        cases hcase : cps.find? fun c => isControl c && !(c == 10) && !(c == 9) with
        | none => rfl
        | some x => rw [hcase] at hf; simp at hf
      have hno := List.find?_eq_none.mp hnone2 c hc
      rw [hctl] at hno
      by_cases h10 : c = 10
      · exact Or.inl h10
      · by_cases h9 : c = 9
        · exact Or.inr h9
        · exfalso
          apply hno
          simp [h10, h9]

/-- C8: after any sequence of `process` calls on a fresh parser,
`describe_eof` (a pure function of the state, which the Rust body does
not mutate) succeeds — the `assert_ne!` cannot fire — and returns the
phrase determined by the number of buffered bytes: 0 ↦ clean close,
1 ↦ incomplete header, 2 or more ↦ incomplete body. -/
theorem claim_eof_description (chunks : List (List Nat)) :
    Blocks.describe_eof (Blocks.processChunks Blocks.new chunks).1
      = some (if (Blocks.processChunks Blocks.new chunks).1.buffer.length = 0 then
          "closed its side of the connection"
        else if (Blocks.processChunks Blocks.new chunks).1.buffer.length = 1 then
          "eof on incomplete block header"
        else
          "eof on incomplete block body") := by
  have hInv := Blocks.processChunks_inv chunks Blocks.new (by decide)
  have h2 := hInv.2
  unfold Blocks.describe_eof
  rw [if_neg (by omega)]
  cases hn : (Blocks.processChunks Blocks.new chunks).1.buffer.length with
  | zero => rfl
  | succ k =>
      cases k with
      | zero => rfl
      | succ m => rfl

/-- C9: the initial block-parser state is an empty buffer with
`goal = 2` and `last_block = false`; it satisfies the invariant
`2 ≤ goal ∧ buffer.len() < goal`, and every `process` call — whatever
the callback returns — preserves the invariant, so `buffer.len() <
goal` holds at entry and exit of every call. -/
theorem claim_parser_invariant (cb : List Nat → Bool → Bool) (st : Blocks)
    (data : List Nat) (h : Blocks.Inv st) :
    Blocks.new = ⟨[], 2, false⟩ ∧ Blocks.Inv Blocks.new ∧
      Blocks.Inv (Blocks.processE cb st data).1 :=
  ⟨rfl, by decide, Blocks.processE_inv cb st data h⟩

theorem claim_parser_invariant_witness :
    Blocks.Inv Blocks.new ∧
      (Blocks.new = ⟨[], 2, false⟩ ∧ Blocks.Inv Blocks.new ∧
        Blocks.Inv (Blocks.processE cbTrue Blocks.new [1, 0]).1) :=
  ⟨by decide, claim_parser_invariant cbTrue Blocks.new [1, 0] (by decide)⟩

/-- C10: when the callback fails while emitting a completed block, the
parser has already cleared its buffer and reset `goal` to 2 before the
error propagates: a `process` call that returns an error leaves the
parser at a block boundary satisfying the invariant, the failing
invocation is the last entry of the call's trace, and the input bytes
following the failing block are returned unconsumed. -/
theorem claim_error_resets (cb : List Nat → Bool → Bool) (st st' : Blocks)
    (data rest : List Nat) (tr : List (List Nat × Bool)) (hInv : Blocks.Inv st)
    (heq : Blocks.processE cb st data = (st', tr, some rest)) :
    st'.buffer = [] ∧ st'.goal = 2 ∧ Blocks.Inv st' ∧
      (∃ pl : List Nat × Bool, tr.getLast? = some pl ∧ cb pl.1 pl.2 = false) ∧
      ∃ consumed, data = consumed ++ rest := by
  obtain ⟨e1, e2, e3, e4⟩ := Blocks.processE_err_aux data.length data st cb st' tr
    rest le_rfl hInv heq
  refine ⟨e1, e2, ⟨by omega, ?_⟩, e3, e4⟩
  rw [e1, e2]
  simp

theorem claim_error_resets_witness :
    Blocks.Inv Blocks.new ∧
    Blocks.processE (fun _ _ => false) Blocks.new [1, 0]
      = (⟨[], 2, true⟩, [([], true)], some []) ∧
    ((⟨[], 2, true⟩ : Blocks).buffer = [] ∧ (⟨[], 2, true⟩ : Blocks).goal = 2 ∧
      Blocks.Inv (⟨[], 2, true⟩ : Blocks) ∧
      (∃ pl : List Nat × Bool, [([], true)].getLast? = some pl ∧
        (fun _ _ => false : List Nat → Bool → Bool) pl.1 pl.2 = false) ∧
      ∃ consumed, ([1, 0] : List Nat) = consumed ++ []) := by
  have heval : Blocks.processE (fun _ _ => false) Blocks.new [1, 0]
      = (⟨[], 2, true⟩, [([], true)], some []) := by
    have h := Blocks.processE_block (fun _ _ => false) false 1 [] [] (by simp)
    simpa using h
  exact ⟨by decide, heval,
    claim_error_resets (fun _ _ => false) Blocks.new ⟨[], 2, true⟩ [1, 0] []
      [([], true)] (by decide) heval⟩

end Monetproxy
